import Mathlib

/-!
# Verification of the per-file stability and lifecycle scheduler

Shallow embedding of `nextcloud_upload_daemon.py`'s `FileProcessor` (the
debounce/upload/delete state machine), the event routing loop of
`main.process_events`, and the directory filtering of `FileWatcher`.

Modelling decisions:
* Time is `Nat`.  Python's stability test `current_time - last_modified >= delay`
  (with `current_time` a later wall-clock reading than the moment `last_modified`
  was written) is rendered as `last_modified + delay ≤ current_time`, which agrees
  with the float comparison for every pair of naturals.
* `threading.Timer(delay, cb, [path]).start()` arms a one-shot timer; we track the
  multiset of outstanding fire deadlines for each callback kind.  A timer fires at
  its deadline, and no step of the system may occur at a time strictly later than
  an outstanding deadline that has not fired yet (timers fire promptly).
* The scheduler is modelled for a single watched path: `FileProcessor.file_states`
  restricted to one key, an `Option FileState`.
* `os.path.exists`, the result of `NextcloudUploader.upload_file` and the outcome
  of `os.remove` are environment inputs carried by each trace step.
* Calls into the collaborators (`upload_file` = create, `update_file` = replace,
  `os.remove`) are recorded in an action log together with the scheduler state
  they were dispatched under.
-/

namespace Daemon

/-- Configuration of `FileProcessor.__init__`: `upload_delay_seconds` and
`delete_delay_seconds`. -/
structure Config where
  upload_delay : Nat
  delete_delay : Nat
deriving DecidableEq, Repr

/-- One entry of `FileProcessor.file_states` (the per-path dict created in
`process_file_event`): `last_modified`, `remote_filename`, `remote_path`,
`upload_scheduled`. -/
structure FileState where
  last_modified : Nat
  remote_filename : Option String
  remote_path : String
  upload_scheduled : Bool
deriving DecidableEq, Repr

/-- Log of dispatched collaborator calls.  Each entry snapshots the fire time and
the record's `last_modified` at the moment of the call.
* `createCall t lm rp res`: `self.uploader.upload_file(file_path, remote_path)`
  dispatched at time `t` with record timestamp `lm`; `res` is the returned
  remote filename (`none` = failure).
* `replaceCall t lm rp name`: `self.uploader.update_file(...)` targeting remote
  name `name`.
* `removeCall t lm name ok`: `os.remove(file_path)` attempted while the record's
  remote name was `name`; `ok` is whether the call raised. -/
inductive Action where
  | createCall (t lm : Nat) (rp : String) (res : Option String)
  | replaceCall (t lm : Nat) (rp name : String)
  | removeCall (t lm : Nat) (name : String) (ok : Bool)
deriving DecidableEq, Repr

/-- Whole-system state for one watched path: the (at most one) record of
`file_states`, the outstanding timer deadlines of each kind, the call log and
the current time. -/
structure SysState where
  record : Option FileState
  uploadTimers : List Nat
  deleteTimers : List Nat
  log : List Action
  now : Nat
deriving DecidableEq, Repr

/-- The empty scheduler: fresh `FileProcessor`, no record, no timers. -/
def initState : SysState := ⟨none, [], [], [], 0⟩

/-- `FileProcessor.process_file_event(event_type, file_path, remote_path)` at
time `t`.  `ex` is the value of `os.path.exists(file_path)`.  Creates or
refreshes the record and arms an upload-check timer (deadline `t +
upload_delay`) unless one is already scheduled. -/
def process_file_event (cfg : Config) (s : SysState) (t : Nat) (ex : Bool)
    (remote_path : String) : SysState :=
  if !ex then s
  else
    let fs : FileState :=
      match s.record with
      | none => { last_modified := t, remote_filename := none,
                  remote_path := remote_path, upload_scheduled := false }
      | some fs => { fs with last_modified := t }
    if fs.upload_scheduled then
      { s with record := some fs }
    else
      { s with record := some { fs with upload_scheduled := true },
               uploadTimers := (t + cfg.upload_delay) :: s.uploadTimers }

/-- `FileProcessor._upload_file_if_stable(file_path)` firing at time `t`.
`ex` is `os.path.exists(file_path)`; `res` the result of
`self.uploader.upload_file` if that call is reached (`none` = upload failed).
Mirrors the source: if the record is stable (`t - last_modified ≥
upload_delay`) run the upload/update branch and clear `upload_scheduled`,
otherwise re-arm a fresh upload timer for the full `upload_delay`.  On a first
successful upload the source arms TWO deletion timers: one after
`delete_delay` (line 277) and one after the hard-coded 600 seconds
(line 279). -/
def upload_file_if_stable (cfg : Config) (s : SysState) (t : Nat) (ex : Bool)
    (res : Option String) : SysState :=
  match s.record with
  | none => s
  | some fs =>
    if fs.last_modified + cfg.upload_delay ≤ t then
      -- stable: run the branch, then file_state["upload_scheduled"] = False
      -- (the flag write of line 286 is applied to the record in each branch)
      if ex then
        match fs.remote_filename with
        | none =>
          -- first upload: self.uploader.upload_file(file_path, remote_path)
          let log' := Action.createCall t fs.last_modified fs.remote_path res :: s.log
          match res with
          | some name =>
            { s with
              record := some { fs with remote_filename := some name,
                                       upload_scheduled := false },
              deleteTimers :=
                (t + cfg.delete_delay) :: (t + 600) :: s.deleteTimers,
              log := log' }
          | none =>
            { s with record := some { fs with upload_scheduled := false },
                     log := log' }
        | some name =>
          -- update existing file, then reset deletion timer
          { s with
            record := some { fs with upload_scheduled := false },
            log := Action.replaceCall t fs.last_modified fs.remote_path name :: s.log,
            deleteTimers := (t + cfg.delete_delay) :: s.deleteTimers }
      else
        { s with record := some { fs with upload_scheduled := false } }
    else
      -- file was modified: reschedule upload for the full interval
      { s with uploadTimers := (t + cfg.upload_delay) :: s.uploadTimers }

/-- `FileProcessor._delete_file_if_stable(file_path)` firing at time `t`.
`ex` is `os.path.exists(file_path)`; `ok` is whether `os.remove` succeeds if
reached.  The source deletes when `t - last_modified ≥ delete_delay`,
`remote_filename is not None` and the file exists; on success it removes the
record, on an `os.remove` exception it leaves the record intact; otherwise, if
`remote_filename is not None`, it re-arms a deletion check after the full
`delete_delay`. -/
def delete_file_if_stable (cfg : Config) (s : SysState) (t : Nat) (ex : Bool)
    (ok : Bool) : SysState :=
  match s.record with
  | none => s
  | some fs =>
    match fs.remote_filename with
    | some name =>
      if fs.last_modified + cfg.delete_delay ≤ t && ex then
        let s2 := { s with
          log := Action.removeCall t fs.last_modified name ok :: s.log }
        if ok then { s2 with record := none } else s2
      else
        { s with deleteTimers := (t + cfg.delete_delay) :: s.deleteTimers }
    | none => s   -- both the `if` and the `elif` test `remote_filename is not None`

/-- One observable step of the system: an activity event delivered to
`process_file_event`, or the firing of an outstanding timer of either kind.
Fire steps name the deadline `d` of the timer they consume. -/
inductive Step where
  | activity (t : Nat) (ex : Bool) (remote_path : String)
  | uploadFire (t d : Nat) (ex : Bool) (res : Option String)
  | deleteFire (t d : Nat) (ex : Bool) (ok : Bool)
deriving DecidableEq, Repr

/-- Physical-time validity of taking a step at time `t`: time is monotone and no
outstanding timer deadline has been passed without firing. -/
def timeOk (s : SysState) (t : Nat) : Bool :=
  decide (s.now ≤ t) && s.uploadTimers.all (fun d => decide (t ≤ d))
    && s.deleteTimers.all (fun d => decide (t ≤ d))

/-- Small-step transition.  A fire step is enabled only if the named deadline is
outstanding and due; it is consumed before the callback body runs. -/
def applyStep (cfg : Config) (s : SysState) : Step → Option SysState
  | .activity t ex rp =>
    if timeOk s t then
      some { process_file_event cfg s t ex rp with now := t }
    else none
  | .uploadFire t d ex res =>
    if timeOk s t && decide (d ≤ t) && s.uploadTimers.contains d then
      let s' := { s with uploadTimers := s.uploadTimers.erase d }
      some { upload_file_if_stable cfg s' t ex res with now := t }
    else none
  | .deleteFire t d ex ok =>
    if timeOk s t && decide (d ≤ t) && s.deleteTimers.contains d then
      let s' := { s with deleteTimers := s.deleteTimers.erase d }
      some { delete_file_if_stable cfg s' t ex ok with now := t }
    else none

/-- Run a trace of steps from a state; `none` if some step is not enabled. -/
def run (cfg : Config) (s : SysState) : List Step → Option SysState
  | [] => some s
  | st :: rest => (applyStep cfg s st).bind (fun s' => run cfg s' rest)

/-! ## Event routing: `FileWatcher` and the loop of `main.process_events` -/

/-- Python `str.startswith`, on the character lists underlying Lean strings. -/
def startswith (s p : String) : Bool := p.data.isPrefixOf s.data

/-- `os.sep` on the POSIX platforms the daemon targets. -/
def os_sep : String := "/"

/-- The match test of `main.process_events` (line 483):
`file_abs_path.startswith(local_dir + os.sep) or file_abs_path == local_dir`.
Paths are taken as already absolute and normalised (`os.path.abspath` is the
identity on such paths). -/
def matchesRoot (local_dir p : String) : Bool :=
  startswith p (local_dir ++ os_sep) || p == local_dir

/-- The `for directory_config in config["directories"]` loop of
`main.process_events` (lines 479–486): scan the configured
`(local, remote)` mappings in order and return the remote directory of the
FIRST mapping whose local root matches; `none` if no mapping matches. -/
def find_remote_dir : List (String × String) → String → Option String
  | [], _ => none
  | (l, r) :: rest, p =>
    if matchesRoot l p then some r else find_remote_dir rest p

/-- Modelled from the spec (§2 EventRouter), for comparison with
`find_remote_dir`: resolve the remote destination by LONGEST-prefix match
against the configured watch roots — among the matching mappings, the one with
the longest local root wins. -/
def find_remote_dir_longest (dirs : List (String × String)) (p : String) :
    Option String :=
  ((dirs.filter (fun d => matchesRoot d.1 p)).foldl
    (fun acc d =>
      match acc with
      | none => some d
      | some d0 => if d0.1.length < d.1.length then some d else acc)
    none).map (fun d => d.2)

/-- `FileWatcher.on_modified` / `on_created`: enqueue `(event_type, src_path)`
unless the event is a directory event. -/
def watcher_emit (is_directory : Bool) (event_type src_path : String) :
    Option (String × String) :=
  if is_directory then none else some (event_type, src_path)

/-- One raw filesystem event through the whole pipeline: `FileWatcher` filters
directory events; `main.process_events` resolves the remote directory by
`find_remote_dir` and, only on a match, calls
`FileProcessor.process_file_event`.  A dropped event leaves the state
untouched (the `event_type` string is threaded through but never examined by
`process_file_event`, as in the source). -/
def deliver_fs_event (cfg : Config) (dirs : List (String × String))
    (s : SysState) (t : Nat) (ex is_directory : Bool) (event_type p : String) :
    Option SysState :=
  match watcher_emit is_directory event_type p with
  | none => some s
  | some (_, path) =>
    match find_remote_dir dirs path with
    | none => some s
    | some rd => applyStep cfg s (.activity t ex rd)

end Daemon

namespace Daemon

/-! ## Helper lemmas -/

theorem log_ne_cons (l : List Action) (a : Action) : l ≠ a :: l := by
  intro h
  have := congrArg List.length h
  simp at this

/-- Any property of states preserved by every enabled step (whose trace steps
all satisfy `Q`) holds after running a trace. -/
theorem run_inv (cfg : Config) (P : SysState → Prop) (Q : Step → Prop)
    (hstep : ∀ s st s', P s → Q st → applyStep cfg s st = some s' → P s') :
    ∀ tr : List Step, (∀ st ∈ tr, Q st) → ∀ s s', P s →
      run cfg s tr = some s' → P s' := by
  intro tr
  induction tr with
  | nil =>
    intro _ s s' hP h
    rw [run, Option.some_inj] at h
    exact h ▸ hP
  | cons st rest ih =>
    intro hQ s s' hP h
    rw [run] at h
    rcases hmid : applyStep cfg s st with _ | s1
    · rw [hmid] at h; exact absurd h (by simp)
    · rw [hmid] at h
      exact ih (fun x hx => hQ x (by simp [hx])) s1 s'
        (hstep s st s1 hP (hQ st (by simp)) hmid) h

/-! ## Theorems -/

/-- C1 (code bug, lines 277–279 of the source): on the first successful upload
the scheduler arms TWO deletion-check timers — one `delete_delay` after the
check and a duplicated hard-coded 600-second one — instead of exactly one
deletion check `delete_delay` seconds after the check.  With
`upload_delay = 10` and `delete_delay = 15`: activity at t=0, upload check at
t=10 with a successful create leaves the deletion deadlines `[25, 610]`. -/
theorem first_upload_arms_two_deletion_timers :
    (run ⟨10, 15⟩ initState
        [.activity 0 true "r", .uploadFire 10 10 true (some "f")]).map
      (fun s => s.deleteTimers) = some [25, 610] := by decide

/-- C2 (counterexample): the remote destination is resolved by the FIRST
matching mapping in configuration order, not by longest-prefix match: with
configured roots `[("/a","r1"), ("/a/b","r2")]` the path `"/a/b/f"` routes to
`"r1"`, while longest-prefix resolution picks `"r2"`. -/
theorem routing_is_first_match_not_longest_prefix :
    find_remote_dir [("/a", "r1"), ("/a/b", "r2")] "/a/b/f" = some "r1" ∧
    find_remote_dir_longest [("/a", "r1"), ("/a/b", "r2")] "/a/b/f" = some "r2" ∧
    (some "r1" : Option String) ≠ some "r2" := by decide

/-- C2 (amended): for every incoming file event the remote destination is
resolved by scanning the configured watch roots in configuration order — the
FIRST mapping whose local root matches (the path equals the root or lies under
it) wins; directory events are filtered out; and events whose path lies under
no configured root are dropped without any record being created or timer
armed. -/
theorem routing_first_match_filter_and_drop (cfg : Config)
    (dirs : List (String × String)) (p : String) :
    (∀ pre l r post, dirs = pre ++ (l, r) :: post →
       (∀ d ∈ pre, matchesRoot d.1 p = false) → matchesRoot l p = true →
       find_remote_dir dirs p = some r) ∧
    ((∀ d ∈ dirs, matchesRoot d.1 p = false) → find_remote_dir dirs p = none) ∧
    (∀ s t ex et, find_remote_dir dirs p = none →
       deliver_fs_event cfg dirs s t ex false et p = some s) ∧
    (∀ s t ex et, deliver_fs_event cfg dirs s t ex true et p = some s) := by
  refine ⟨?_, ?_, ?_, ?_⟩
  · intro pre l r post hd hpre hl
    subst hd
    induction pre with
    | nil => simp [find_remote_dir, hl]
    | cons a as ih =>
      have ha := hpre a (by simp)
      simpa [find_remote_dir, ha] using ih (fun d hd => hpre d (by simp [hd]))
  · intro hall
    induction dirs with
    | nil => rfl
    | cons a as ih =>
      have ha := hall a (by simp)
      simpa [find_remote_dir, ha] using ih (fun d hd => hall d (by simp [hd]))
  · intro s t ex et hnone
    simp [deliver_fs_event, watcher_emit, hnone]
  · intro s t ex et
    simp [deliver_fs_event, watcher_emit]

/-- Closed instance of C2's amended theorem: first-match resolution, the drop
of an unmatched path, and the drop of a directory event, each at a concrete
input. -/
theorem routing_first_match_filter_and_drop_witness :
    find_remote_dir [("/a", "r1"), ("/b", "r2")] "/b/x" = some "r2" ∧
    find_remote_dir [("/a", "r1"), ("/b", "r2")] "/c/x" = none ∧
    deliver_fs_event ⟨10, 600⟩ [("/a", "r1"), ("/b", "r2")] initState 0 true
      false "created" "/c/x" = some initState ∧
    deliver_fs_event ⟨10, 600⟩ [("/a", "r1"), ("/b", "r2")] initState 0 true
      true "created" "/b/x" = some initState :=
  ⟨(routing_first_match_filter_and_drop ⟨10, 600⟩ [("/a", "r1"), ("/b", "r2")]
      "/b/x").1 [("/a", "r1")] "/b" "r2" [] rfl (by decide) (by decide),
   (routing_first_match_filter_and_drop ⟨10, 600⟩ [("/a", "r1"), ("/b", "r2")]
      "/c/x").2.1 (by decide),
   (routing_first_match_filter_and_drop ⟨10, 600⟩ [("/a", "r1"), ("/b", "r2")]
      "/c/x").2.2.1 initState 0 true "created"
     ((routing_first_match_filter_and_drop ⟨10, 600⟩ [("/a", "r1"), ("/b", "r2")]
      "/c/x").2.1 (by decide)),
   (routing_first_match_filter_and_drop ⟨10, 600⟩ [("/a", "r1"), ("/b", "r2")]
      "/b/x").2.2.2 initState 0 true "created"⟩

/-- C8: if a deletion check finds the path stable and synced but `os.remove`
raises an error, the record is left intact in the store with all fields
unchanged (`remote_filename` still set) and no new deletion-check timer is
armed by that firing — only the consumed timer is gone and the failed removal
is logged. -/
theorem failed_delete_leaves_record_intact (cfg : Config) (s : SysState)
    (t d : Nat) (fs : FileState) (name : String) (s' : SysState)
    (hstep : applyStep cfg s (.deleteFire t d true false) = some s')
    (hrec : s.record = some fs)
    (hrem : fs.remote_filename = some name)
    (hstable : fs.last_modified + cfg.delete_delay ≤ t) :
    s'.record = some fs ∧
    s'.deleteTimers = s.deleteTimers.erase d ∧
    s'.uploadTimers = s.uploadTimers ∧
    s'.log = Action.removeCall t fs.last_modified name false :: s.log := by
  simp only [applyStep] at hstep
  split at hstep
  · rw [Option.some_inj] at hstep
    subst hstep
    simp [delete_file_if_stable, hrec, hrem, hstable]
  · exact absurd hstep (by simp)

/-- Closed instance of C8's theorem. -/
theorem failed_delete_leaves_record_intact_witness :
    (⟨some ⟨0, some "f", "r", false⟩, [], [],
        [Action.removeCall 20 0 "f" false], 20⟩ : SysState).record
      = some ⟨0, some "f", "r", false⟩ ∧
    (⟨some ⟨0, some "f", "r", false⟩, [], [],
        [Action.removeCall 20 0 "f" false], 20⟩ : SysState).deleteTimers = [] ∧
    (⟨some ⟨0, some "f", "r", false⟩, [], [],
        [Action.removeCall 20 0 "f" false], 20⟩ : SysState).uploadTimers = [] ∧
    (⟨some ⟨0, some "f", "r", false⟩, [], [],
        [Action.removeCall 20 0 "f" false], 20⟩ : SysState).log
      = [Action.removeCall 20 0 "f" false] := by
  exact failed_delete_leaves_record_intact ⟨10, 15⟩
    ⟨some ⟨0, some "f", "r", false⟩, [], [20], [], 0⟩ 20 20
    ⟨0, some "f", "r", false⟩ "f"
    ⟨some ⟨0, some "f", "r", false⟩, [], [], [Action.removeCall 20 0 "f" false], 20⟩
    (by decide) rfl rfl (by decide)

/-- C9: a check that fires too early (elapsed time since the last recorded
activity below the configured window) re-arms its successor for the FULL
configured interval from the fire time, not the remaining time: an upload
check observing activity within `upload_delay` re-arms at `t + upload_delay`,
and a deletion check on a synced record observing activity within
`delete_delay` re-arms at `t + delete_delay`; neither touches the record, the
other timer list, or the log. -/
theorem early_check_rearms_full_interval (cfg : Config) (s : SysState)
    (t d : Nat) (fs : FileState) (hrec : s.record = some fs) :
    (∀ ex res s', applyStep cfg s (.uploadFire t d ex res) = some s' →
       t < fs.last_modified + cfg.upload_delay →
       s'.uploadTimers = (t + cfg.upload_delay) :: s.uploadTimers.erase d ∧
       s'.record = s.record ∧ s'.deleteTimers = s.deleteTimers ∧
       s'.log = s.log) ∧
    (∀ ex ok s' name, fs.remote_filename = some name →
       applyStep cfg s (.deleteFire t d ex ok) = some s' →
       t < fs.last_modified + cfg.delete_delay →
       s'.deleteTimers = (t + cfg.delete_delay) :: s.deleteTimers.erase d ∧
       s'.record = s.record ∧ s'.uploadTimers = s.uploadTimers ∧
       s'.log = s.log) := by
  constructor
  · intro ex res s' hstep hearly
    have hn : ¬ (fs.last_modified + cfg.upload_delay ≤ t) := by omega
    simp only [applyStep] at hstep
    split at hstep
    · rw [Option.some_inj] at hstep
      subst hstep
      simp [upload_file_if_stable, hrec, hn]
    · exact absurd hstep (by simp)
  · intro ex ok s' name hrem hstep hearly
    have hn : ¬ (fs.last_modified + cfg.delete_delay ≤ t) := by omega
    simp only [applyStep] at hstep
    split at hstep
    · rw [Option.some_inj] at hstep
      subst hstep
      simp [delete_file_if_stable, hrec, hrem, hn]
    · exact absurd hstep (by simp)

/-- Closed instance of C9's theorem: an early upload check and an early
deletion check, each re-arming at the full configured interval. -/
theorem early_check_rearms_full_interval_witness :
    ((⟨some ⟨5, none, "r", true⟩, [22], [], [], 12⟩ : SysState).uploadTimers
        = 22 :: List.erase [12] 12 ∧
     (⟨some ⟨5, none, "r", true⟩, [22], [], [], 12⟩ : SysState).record
        = some ⟨5, none, "r", true⟩ ∧
     (⟨some ⟨5, none, "r", true⟩, [22], [], [], 12⟩ : SysState).deleteTimers
        = [] ∧
     (⟨some ⟨5, none, "r", true⟩, [22], [], [], 12⟩ : SysState).log = []) ∧
    ((⟨some ⟨5, some "f", "r", false⟩, [], [27], [], 12⟩ : SysState).deleteTimers
        = 27 :: List.erase [12] 12 ∧
     (⟨some ⟨5, some "f", "r", false⟩, [], [27], [], 12⟩ : SysState).record
        = some ⟨5, some "f", "r", false⟩ ∧
     (⟨some ⟨5, some "f", "r", false⟩, [], [27], [], 12⟩ : SysState).uploadTimers
        = [] ∧
     (⟨some ⟨5, some "f", "r", false⟩, [], [27], [], 12⟩ : SysState).log = []) :=
  ⟨(early_check_rearms_full_interval ⟨10, 15⟩
      ⟨some ⟨5, none, "r", true⟩, [12], [], [], 0⟩ 12 12 ⟨5, none, "r", true⟩
      rfl).1 true none ⟨some ⟨5, none, "r", true⟩, [22], [], [], 12⟩
      (by decide) (by decide),
   (early_check_rearms_full_interval ⟨10, 15⟩
      ⟨some ⟨5, some "f", "r", false⟩, [], [12], [], 0⟩ 12 12
      ⟨5, some "f", "r", false⟩ rfl).2 true true
      ⟨some ⟨5, some "f", "r", false⟩, [], [27], [], 12⟩ "f" rfl
      (by decide) (by decide)⟩

/-- C10: for every activity event whose local path does not exist on disk at
the moment `process_file_event` runs, the call returns without acquiring any
state: no record is created or updated, no timer is armed, and the record
store is left exactly as it was. -/
theorem activity_nonexistent_path_frame (cfg : Config) (s : SysState) (t : Nat)
    (rp : String) (h : timeOk s t = true) :
    ∃ s', applyStep cfg s (.activity t false rp) = some s' ∧
      s'.record = s.record ∧ s'.uploadTimers = s.uploadTimers ∧
      s'.deleteTimers = s.deleteTimers ∧ s'.log = s.log := by
  refine ⟨{ s with now := t }, ?_, rfl, rfl, rfl, rfl⟩
  simp [applyStep, process_file_event, h]

/-- Closed instance of C10's theorem. -/
theorem activity_nonexistent_path_frame_witness :
    ∃ s', applyStep ⟨10, 600⟩ initState (Step.activity 3 false "r") = some s' ∧
      s'.record = initState.record ∧ s'.uploadTimers = initState.uploadTimers ∧
      s'.deleteTimers = initState.deleteTimers ∧ s'.log = initState.log :=
  activity_nonexistent_path_frame ⟨10, 600⟩ initState 3 "r" (by decide)

/-- C7: if the first upload (create) for a path fails, the upload check leaves
the record with `remote_filename` still `none`, sets `upload_scheduled` to
`false`, and arms no further timer of any kind: the consumed upload timer is
gone, no new upload or deletion timer appears, and only the failed create call
is logged. -/
theorem failed_first_upload_no_retry (cfg : Config) (s : SysState) (t d : Nat)
    (fs : FileState) (s' : SysState)
    (hstep : applyStep cfg s (.uploadFire t d true none) = some s')
    (hrec : s.record = some fs)
    (hrem : fs.remote_filename = none)
    (hstable : fs.last_modified + cfg.upload_delay ≤ t) :
    s'.record = some { fs with upload_scheduled := false } ∧
    s'.uploadTimers = s.uploadTimers.erase d ∧
    s'.deleteTimers = s.deleteTimers ∧
    s'.log = Action.createCall t fs.last_modified fs.remote_path none :: s.log := by
  simp only [applyStep] at hstep
  split at hstep
  · rw [Option.some_inj] at hstep
    subst hstep
    simp [upload_file_if_stable, hrec, hrem, hstable]
  · exact absurd hstep (by simp)

/-- Closed instance of C7's theorem. -/
theorem failed_first_upload_no_retry_witness :
    (⟨some ⟨0, none, "r", false⟩, [], [], [Action.createCall 10 0 "r" none], 10⟩
        : SysState).record = some ⟨0, none, "r", false⟩ ∧
    (⟨some ⟨0, none, "r", false⟩, [], [], [Action.createCall 10 0 "r" none], 10⟩
        : SysState).uploadTimers = [] ∧
    (⟨some ⟨0, none, "r", false⟩, [], [], [Action.createCall 10 0 "r" none], 10⟩
        : SysState).deleteTimers = [] ∧
    (⟨some ⟨0, none, "r", false⟩, [], [], [Action.createCall 10 0 "r" none], 10⟩
        : SysState).log = [Action.createCall 10 0 "r" none] := by
  exact failed_first_upload_no_retry ⟨10, 600⟩
    ⟨some ⟨0, none, "r", true⟩, [10], [], [], 0⟩ 10 10 ⟨0, none, "r", true⟩
    ⟨some ⟨0, none, "r", false⟩, [], [], [Action.createCall 10 0 "r" none], 10⟩
    (by decide) rfl rfl (by decide)

/-- C5: once `remote_filename` has been set to a non-null value, no subsequent
operation clears or reassigns it for the life of the record — any step that
keeps the record in the store preserves the remote name — and every replace
(update) call dispatched targets exactly the record's current remote name;
a new name is only ever returned by a create, which requires
`remote_filename = none`. -/
theorem remote_name_immutable (cfg : Config) (s : SysState) (st : Step)
    (s' : SysState) (hstep : applyStep cfg s st = some s') :
    (∀ fs fs' r, s.record = some fs → s'.record = some fs' →
       fs.remote_filename = some r → fs'.remote_filename = some r) ∧
    (∀ t lm rp name, s'.log = Action.replaceCall t lm rp name :: s.log →
       ∃ fs, s.record = some fs ∧ fs.remote_filename = some name) := by
  cases st with
  | activity t ex rp =>
    simp only [applyStep] at hstep
    split at hstep
    · rw [Option.some_inj] at hstep
      subst hstep
      constructor
      · intro fs fs' r h1 h2 h3
        simp only [process_file_event, h1] at h2
        repeat' split at h2
        all_goals try cases h2
        all_goals simp_all
      · intro t' lm rp' name hlog
        simp only [process_file_event] at hlog
        repeat' split at hlog
        all_goals try dsimp only at hlog
        all_goals exact absurd hlog (log_ne_cons _ _)
    · exact absurd hstep (by simp)
  | uploadFire t d ex res =>
    simp only [applyStep] at hstep
    split at hstep
    · rw [Option.some_inj] at hstep
      subst hstep
      constructor
      · intro fs fs' r h1 h2 h3
        simp only [upload_file_if_stable, h1] at h2
        repeat' split at h2
        all_goals try cases h2
        all_goals simp_all
      · intro t' lm rp' name hlog
        simp only [upload_file_if_stable] at hlog
        rcases hr : s.record with _ | fs <;> simp only [hr] at hlog
        · exact absurd hlog (log_ne_cons _ _)
        · repeat' split at hlog
          all_goals
            first
              | exact absurd (by simpa using hlog) (log_ne_cons _ _)
              | exact ⟨fs, rfl, by simp_all⟩
    · exact absurd hstep (by simp)
  | deleteFire t d ex ok =>
    simp only [applyStep] at hstep
    split at hstep
    · rw [Option.some_inj] at hstep
      subst hstep
      constructor
      · intro fs fs' r h1 h2 h3
        simp only [delete_file_if_stable, h1] at h2
        repeat' split at h2
        all_goals try cases h2
        all_goals simp_all
      · intro t' lm rp' name hlog
        simp only [delete_file_if_stable] at hlog
        rcases hr : s.record with _ | fs <;> simp only [hr] at hlog
        · exact absurd hlog (log_ne_cons _ _)
        · repeat' split at hlog
          all_goals
            first
              | exact absurd (by simpa using hlog) (log_ne_cons _ _)
              | exact ⟨fs, rfl, by simp_all⟩
    · exact absurd hstep (by simp)

/-- Closed instance of C5's theorem, at a successful replace step. -/
theorem remote_name_immutable_witness :
    ((⟨0, some "f", "r", false⟩ : FileState).remote_filename = some "f") ∧
    (∃ fs, (some (⟨0, some "f", "r", true⟩ : FileState)) = some fs ∧
       fs.remote_filename = some "f") := by
  have h := remote_name_immutable ⟨10, 15⟩
    ⟨some ⟨0, some "f", "r", true⟩, [10], [], [], 0⟩ (Step.uploadFire 10 10 true none)
    ⟨some ⟨0, some "f", "r", false⟩, [], [25],
      [Action.replaceCall 10 0 "r" "f"], 10⟩ (by decide)
  exact ⟨h.1 ⟨0, some "f", "r", true⟩ ⟨0, some "f", "r", false⟩ "f" rfl rfl rfl,
        h.2 10 0 "r" "f" rfl⟩


/-- Any single step appends a `removeCall` entry only from a record whose
remote name is set and whose quiet window has elapsed at the fire time. -/
theorem removeCall_step_inv (cfg : Config) (s : SysState) (st : Step)
    (s' : SysState) (hstep : applyStep cfg s st = some s')
    (t lm : Nat) (name : String) (ok : Bool)
    (hlog : s'.log = Action.removeCall t lm name ok :: s.log) :
    ∃ fs, s.record = some fs ∧ fs.remote_filename = some name ∧
      fs.last_modified = lm ∧ lm + cfg.delete_delay ≤ t := by
  cases st with
  | activity tf ex rp =>
    simp only [applyStep] at hstep
    split at hstep
    · rw [Option.some_inj] at hstep
      subst hstep
      simp only [process_file_event] at hlog
      repeat' split at hlog
      all_goals try dsimp only at hlog
      all_goals exact absurd hlog (log_ne_cons _ _)
    · exact absurd hstep (by simp)
  | uploadFire tf d ex res =>
    simp only [applyStep] at hstep
    split at hstep
    · rw [Option.some_inj] at hstep
      subst hstep
      simp only [upload_file_if_stable] at hlog
      rcases hr : s.record with _ | fs <;> simp only [hr] at hlog
      · exact absurd hlog (log_ne_cons _ _)
      · repeat' split at hlog
        all_goals try dsimp only at hlog
        all_goals
          first
            | exact absurd hlog (log_ne_cons _ _)
            | simp_all
    · exact absurd hstep (by simp)
  | deleteFire tf d ex ok' =>
    simp only [applyStep] at hstep
    split at hstep
    · rw [Option.some_inj] at hstep
      subst hstep
      simp only [delete_file_if_stable] at hlog
      rcases hr : s.record with _ | fs <;> simp only [hr] at hlog
      · exact absurd hlog (log_ne_cons _ _)
      · repeat' split at hlog
        all_goals try dsimp only at hlog
        all_goals
          first
            | exact absurd hlog (log_ne_cons _ _)
            | exact ⟨fs, rfl, by simp_all, by simp_all, by simp_all⟩
    · exact absurd hstep (by simp)

/-- Every step changes the log by at most one appended entry. -/
theorem applyStep_log_evolution (cfg : Config) (s : SysState) (st : Step)
    (s' : SysState) (hstep : applyStep cfg s st = some s') :
    s'.log = s.log ∨ ∃ a, s'.log = a :: s.log := by
  cases st with
  | activity tf ex rp =>
    simp only [applyStep] at hstep
    split at hstep
    · rw [Option.some_inj] at hstep
      subst hstep
      simp only [process_file_event]
      repeat' split
      all_goals first | exact Or.inl rfl | exact Or.inr ⟨_, rfl⟩
    · exact absurd hstep (by simp)
  | uploadFire tf d ex res =>
    simp only [applyStep] at hstep
    split at hstep
    · rw [Option.some_inj] at hstep
      subst hstep
      simp only [upload_file_if_stable]
      repeat' split
      all_goals first | exact Or.inl rfl | exact Or.inr ⟨_, rfl⟩
    · exact absurd hstep (by simp)
  | deleteFire tf d ex ok =>
    simp only [applyStep] at hstep
    split at hstep
    · rw [Option.some_inj] at hstep
      subst hstep
      simp only [delete_file_if_stable]
      repeat' split
      all_goals first | exact Or.inl rfl | exact Or.inr ⟨_, rfl⟩
    · exact absurd hstep (by simp)

/-- C4: for every sequence of events and timer firings, `os.remove` is invoked
only when the record has a non-null `remote_filename` and the time elapsed
since the record's last recorded activity is at least `delete_delay` at the
moment the deletion check fires: stepwise, any appended `removeCall` comes
from a synced record with its quiet window elapsed; and along any run every
logged removal satisfies the quiet-window bound. -/
theorem remove_only_when_synced_and_quiet (cfg : Config) :
    (∀ s st s', applyStep cfg s st = some s' →
       ∀ t lm name ok, s'.log = Action.removeCall t lm name ok :: s.log →
         ∃ fs, s.record = some fs ∧ fs.remote_filename = some name ∧
           fs.last_modified = lm ∧ lm + cfg.delete_delay ≤ t) ∧
    (∀ tr s', run cfg initState tr = some s' →
       ∀ t lm name ok, Action.removeCall t lm name ok ∈ s'.log →
         lm + cfg.delete_delay ≤ t) := by
  constructor
  · intro s st s' h t lm name ok hlog
    exact removeCall_step_inv cfg s st s' h t lm name ok hlog
  · intro tr s' hrun
    have key := run_inv cfg
      (fun s => ∀ t lm name ok, Action.removeCall t lm name ok ∈ s.log →
        lm + cfg.delete_delay ≤ t)
      (fun _ => True) ?_ tr (fun _ _ => trivial) initState s' ?_ hrun
    · exact key
    · intro s st s1 hP _ hstep t lm name ok hmem
      rcases applyStep_log_evolution cfg s st s1 hstep with hsame | ⟨a, hcons⟩
      · exact hP t lm name ok (hsame ▸ hmem)
      · rw [hcons] at hmem
        rcases List.mem_cons.mp hmem with hhead | htail
        · subst hhead
          obtain ⟨fs, -, -, -, hbound⟩ :=
            removeCall_step_inv cfg s st s1 hstep t lm name ok (by rw [hcons])
          exact hbound
        · exact hP t lm name ok htail
    · intro t lm name ok hmem
      simp [initState] at hmem

/-- Closed instance of C4's theorem: the stepwise part at a firing deletion
check, and the trace part on the run activity@0 → successful upload@10 →
deletion@25 with `delete_delay = 15`. -/
theorem remove_only_when_synced_and_quiet_witness :
    (∃ fs, (some (⟨0, some "f", "r", false⟩ : FileState) : Option FileState)
        = some fs ∧ fs.remote_filename = some "f" ∧ fs.last_modified = 0 ∧
        0 + (15 : Nat) ≤ 25) ∧
    0 + (15 : Nat) ≤ 25 := by
  have h := remove_only_when_synced_and_quiet ⟨10, 15⟩
  refine ⟨h.1 ⟨some ⟨0, some "f", "r", false⟩, [], [25, 610],
      [Action.createCall 10 0 "r" (some "f")], 10⟩ (Step.deleteFire 25 25 true true)
      ⟨none, [], [610], [Action.removeCall 25 0 "f" true,
        Action.createCall 10 0 "r" (some "f")], 25⟩ (by decide) 25 0 "f" true rfl, ?_⟩
  exact h.2 [Step.activity 0 true "r", Step.uploadFire 10 10 true (some "f"),
      Step.deleteFire 25 25 true true]
    ⟨none, [], [610], [Action.removeCall 25 0 "f" true,
      Action.createCall 10 0 "r" (some "f")], 25⟩ (by decide) 25 0 "f" true (by decide)


/-- Number of create (first-upload) dispatches recorded in a log. -/
def countCreates (l : List Action) : Nat :=
  l.countP (fun a => match a with | .createCall _ _ _ _ => true | _ => false)

/-- `st` is not a deletion-check firing. -/
def notDeleteFire : Step → Bool
  | .deleteFire _ _ _ _ => false
  | _ => true

/-- Any upload attempted by `st` succeeds. -/
def uploadSucceeds : Step → Bool
  | .uploadFire _ _ _ res => res.isSome
  | _ => true

/-- Any single step appends a `createCall` entry only from a record that is
still unsynced (`remote_filename = none`) and whose quiet window has elapsed
at the fire time. -/
theorem createCall_step_inv (cfg : Config) (s : SysState) (st : Step)
    (s' : SysState) (hstep : applyStep cfg s st = some s')
    (t lm : Nat) (rp : String) (res : Option String)
    (hlog : s'.log = Action.createCall t lm rp res :: s.log) :
    ∃ fs, s.record = some fs ∧ fs.remote_filename = none ∧
      fs.last_modified = lm ∧ lm + cfg.upload_delay ≤ t := by
  cases st with
  | activity tf ex rp' =>
    simp only [applyStep] at hstep
    split at hstep
    · rw [Option.some_inj] at hstep
      subst hstep
      simp only [process_file_event] at hlog
      repeat' split at hlog
      all_goals try dsimp only at hlog
      all_goals exact absurd hlog (log_ne_cons _ _)
    · exact absurd hstep (by simp)
  | uploadFire tf d ex res' =>
    simp only [applyStep] at hstep
    split at hstep
    · rw [Option.some_inj] at hstep
      subst hstep
      simp only [upload_file_if_stable] at hlog
      rcases hr : s.record with _ | fs <;> simp only [hr] at hlog
      · exact absurd hlog (log_ne_cons _ _)
      · repeat' split at hlog
        all_goals try dsimp only at hlog
        all_goals
          first
            | exact absurd hlog (log_ne_cons _ _)
            | exact ⟨fs, rfl, by simp_all, by simp_all, by simp_all⟩
    · exact absurd hstep (by simp)
  | deleteFire tf d ex ok =>
    simp only [applyStep] at hstep
    split at hstep
    · rw [Option.some_inj] at hstep
      subst hstep
      simp only [delete_file_if_stable] at hlog
      rcases hr : s.record with _ | fs <;> simp only [hr] at hlog
      · exact absurd hlog (log_ne_cons _ _)
      · repeat' split at hlog
        all_goals try dsimp only at hlog
        all_goals
          first
            | exact absurd hlog (log_ne_cons _ _)
            | simp_all
    · exact absurd hstep (by simp)

/-- Invariant for the at-most-one-create property: at most one create was
dispatched, and after the first one the (surviving) record carries a remote
name. -/
def CreateOnce (s : SysState) : Prop :=
  countCreates s.log ≤ 1 ∧
  (1 ≤ countCreates s.log →
    ∃ fs r, s.record = some fs ∧ fs.remote_filename = some r)

theorem createOnce_step (cfg : Config) (s : SysState) (st : Step)
    (s' : SysState) (hP : CreateOnce s)
    (hQ : notDeleteFire st = true ∧ uploadSucceeds st = true)
    (hstep : applyStep cfg s st = some s') : CreateOnce s' := by
  obtain ⟨hc, hr⟩ := hP
  cases st with
  | activity tf ex rp =>
    simp only [applyStep] at hstep
    split at hstep
    · rw [Option.some_inj] at hstep
      subst hstep
      simp only [CreateOnce, countCreates, process_file_event] at *
      repeat' split
      all_goals refine ⟨by simp_all, fun h1 => ?_⟩
      all_goals obtain ⟨fs0, r0, hrec0, hrem0⟩ := hr (by simp_all)
      all_goals simp_all
    · exact absurd hstep (by simp)
  | uploadFire tf d ex res =>
    have hres : res.isSome := by
      simpa [uploadSucceeds] using hQ.2
    simp only [applyStep] at hstep
    split at hstep
    · rw [Option.some_inj] at hstep
      subst hstep
      simp only [CreateOnce, countCreates, upload_file_if_stable] at *
      rcases hrec : s.record with _ | fs
      · exact ⟨by simp_all, fun h1 => by
          obtain ⟨fs0, r0, h0, _⟩ := hr (by simp_all)
          simp_all⟩
      · rcases res with _ | name
        · exact absurd hres (by simp)
        · repeat' split
          all_goals refine ⟨?_, fun h1 => ?_⟩
          all_goals simp_all [List.countP_cons]
    · exact absurd hstep (by simp)
  | deleteFire tf d ex ok =>
    exact absurd hQ.1 (by simp [notDeleteFire])



/-- C6: a create call is dispatched to the uploader only when, at the upload
check's fire time, the elapsed time since the path's last recorded activity is
at least `upload_delay` and the record's `remote_filename` is still `none`;
and in any run in which no deletion fires and every attempted upload succeeds,
repeated touches never produce more than one create call. -/
theorem create_only_when_quiet_and_unsynced (cfg : Config) :
    (∀ s st s', applyStep cfg s st = some s' →
       ∀ t lm rp res, s'.log = Action.createCall t lm rp res :: s.log →
         ∃ fs, s.record = some fs ∧ fs.remote_filename = none ∧
           fs.last_modified = lm ∧ lm + cfg.upload_delay ≤ t) ∧
    (∀ tr s', (∀ st ∈ tr, notDeleteFire st = true ∧ uploadSucceeds st = true) →
       run cfg initState tr = some s' → countCreates s'.log ≤ 1) := by
  constructor
  · exact fun s st s' h t lm rp res hlog =>
      createCall_step_inv cfg s st s' h t lm rp res hlog
  · intro tr s' hQ hrun
    have key := run_inv cfg CreateOnce
      (fun st => notDeleteFire st = true ∧ uploadSucceeds st = true)
      (fun s st s1 hP hq hstep => createOnce_step cfg s st s1 hP hq hstep)
      tr hQ initState s'
      ⟨by simp [countCreates, initState],
       fun h1 => absurd h1 (by simp [countCreates, initState])⟩ hrun
    exact key.1

/-- Closed instance of C6's theorem: the create dispatched at t=10 came from
an unsynced record quiet since t=0, and the run activity@0 → successful
upload@10 contains exactly one create. -/
theorem create_only_when_quiet_and_unsynced_witness :
    (∃ fs, (some (⟨0, none, "r", true⟩ : FileState) : Option FileState)
        = some fs ∧ fs.remote_filename = none ∧ fs.last_modified = 0 ∧
        0 + (10 : Nat) ≤ 10) ∧
    countCreates [Action.createCall 10 0 "r" (some "f")] ≤ 1 := by
  have h := create_only_when_quiet_and_unsynced ⟨10, 15⟩
  refine ⟨h.1 ⟨some ⟨0, none, "r", true⟩, [10], [], [], 0⟩
      (Step.uploadFire 10 10 true (some "f"))
      ⟨some ⟨0, some "f", "r", false⟩, [], [25, 610],
        [Action.createCall 10 0 "r" (some "f")], 10⟩ (by decide)
      10 0 "r" (some "f") rfl, ?_⟩
  exact h.2 [Step.activity 0 true "r", Step.uploadFire 10 10 true (some "f")]
    ⟨some ⟨0, some "f", "r", false⟩, [], [25, 610],
      [Action.createCall 10 0 "r" (some "f")], 10⟩ (by decide) (by decide)



/-! ## Branch characterisations of the transition functions -/

theorem pfe_noex (cfg : Config) (s : SysState) (t : Nat) (rp : String) :
    process_file_event cfg s t false rp = s := by
  simp [process_file_event]

theorem pfe_new_record (cfg : Config) (s : SysState) (t : Nat) (rp : String)
    (hrec : s.record = none) :
    process_file_event cfg s t true rp =
      { s with record := some ⟨t, none, rp, true⟩,
               uploadTimers := (t + cfg.upload_delay) :: s.uploadTimers } := by
  simp [process_file_event, hrec]

theorem pfe_sched (cfg : Config) (s : SysState) (t : Nat) (rp : String)
    (fs : FileState) (hrec : s.record = some fs)
    (hs : fs.upload_scheduled = true) :
    process_file_event cfg s t true rp =
      { s with record := some { fs with last_modified := t } } := by
  simp [process_file_event, hrec, hs]

theorem pfe_unsched (cfg : Config) (s : SysState) (t : Nat) (rp : String)
    (fs : FileState) (hrec : s.record = some fs)
    (hs : fs.upload_scheduled = false) :
    process_file_event cfg s t true rp =
      { s with record := some { fs with last_modified := t,
                                        upload_scheduled := true },
               uploadTimers := (t + cfg.upload_delay) :: s.uploadTimers } := by
  simp [process_file_event, hrec, hs]

theorem ufis_none (cfg : Config) (s : SysState) (t : Nat) (ex : Bool)
    (res : Option String) (hrec : s.record = none) :
    upload_file_if_stable cfg s t ex res = s := by
  simp [upload_file_if_stable, hrec]

theorem ufis_unstable (cfg : Config) (s : SysState) (t : Nat) (ex : Bool)
    (res : Option String) (fs : FileState) (hrec : s.record = some fs)
    (hst : ¬ fs.last_modified + cfg.upload_delay ≤ t) :
    upload_file_if_stable cfg s t ex res =
      { s with uploadTimers := (t + cfg.upload_delay) :: s.uploadTimers } := by
  simp [upload_file_if_stable, hrec, hst]

theorem ufis_stable_noex (cfg : Config) (s : SysState) (t : Nat)
    (res : Option String) (fs : FileState) (hrec : s.record = some fs)
    (hst : fs.last_modified + cfg.upload_delay ≤ t) :
    upload_file_if_stable cfg s t false res =
      { s with record := some { fs with upload_scheduled := false } } := by
  simp [upload_file_if_stable, hrec, hst]

theorem ufis_create_ok (cfg : Config) (s : SysState) (t : Nat) (name : String)
    (fs : FileState) (hrec : s.record = some fs)
    (hst : fs.last_modified + cfg.upload_delay ≤ t)
    (hrem : fs.remote_filename = none) :
    upload_file_if_stable cfg s t true (some name) =
      { s with
        record := some { fs with remote_filename := some name,
                                 upload_scheduled := false },
        deleteTimers := (t + cfg.delete_delay) :: (t + 600) :: s.deleteTimers,
        log := Action.createCall t fs.last_modified fs.remote_path (some name)
                 :: s.log } := by
  simp [upload_file_if_stable, hrec, hst, hrem]

theorem ufis_create_fail (cfg : Config) (s : SysState) (t : Nat)
    (fs : FileState) (hrec : s.record = some fs)
    (hst : fs.last_modified + cfg.upload_delay ≤ t)
    (hrem : fs.remote_filename = none) :
    upload_file_if_stable cfg s t true none =
      { s with
        record := some { fs with upload_scheduled := false },
        log := Action.createCall t fs.last_modified fs.remote_path none
                 :: s.log } := by
  simp [upload_file_if_stable, hrec, hst, hrem]

theorem ufis_replace (cfg : Config) (s : SysState) (t : Nat)
    (res : Option String) (fs : FileState) (name : String)
    (hrec : s.record = some fs)
    (hst : fs.last_modified + cfg.upload_delay ≤ t)
    (hrem : fs.remote_filename = some name) :
    upload_file_if_stable cfg s t true res =
      { s with
        record := some { fs with upload_scheduled := false },
        log := Action.replaceCall t fs.last_modified fs.remote_path name
                 :: s.log,
        deleteTimers := (t + cfg.delete_delay) :: s.deleteTimers } := by
  simp [upload_file_if_stable, hrec, hst, hrem]

theorem dfis_none (cfg : Config) (s : SysState) (t : Nat) (ex ok : Bool)
    (hrec : s.record = none) :
    delete_file_if_stable cfg s t ex ok = s := by
  simp [delete_file_if_stable, hrec]

theorem dfis_unsynced (cfg : Config) (s : SysState) (t : Nat) (ex ok : Bool)
    (fs : FileState) (hrec : s.record = some fs)
    (hrem : fs.remote_filename = none) :
    delete_file_if_stable cfg s t ex ok = s := by
  simp [delete_file_if_stable, hrec, hrem]

theorem dfis_remove_ok (cfg : Config) (s : SysState) (t : Nat)
    (fs : FileState) (name : String) (hrec : s.record = some fs)
    (hrem : fs.remote_filename = some name)
    (hst : fs.last_modified + cfg.delete_delay ≤ t) :
    delete_file_if_stable cfg s t true true =
      { s with record := none,
               log := Action.removeCall t fs.last_modified name true
                 :: s.log } := by
  simp [delete_file_if_stable, hrec, hrem, hst]

theorem dfis_remove_fail (cfg : Config) (s : SysState) (t : Nat)
    (fs : FileState) (name : String) (hrec : s.record = some fs)
    (hrem : fs.remote_filename = some name)
    (hst : fs.last_modified + cfg.delete_delay ≤ t) :
    delete_file_if_stable cfg s t true false =
      { s with log := Action.removeCall t fs.last_modified name false
                 :: s.log } := by
  simp [delete_file_if_stable, hrec, hrem, hst]

theorem dfis_rearm (cfg : Config) (s : SysState) (t : Nat) (ex ok : Bool)
    (fs : FileState) (name : String) (hrec : s.record = some fs)
    (hrem : fs.remote_filename = some name)
    (hg : ¬ (fs.last_modified + cfg.delete_delay ≤ t ∧ ex = true)) :
    delete_file_if_stable cfg s t ex ok =
      { s with deleteTimers := (t + cfg.delete_delay) :: s.deleteTimers } := by
  have : (decide (fs.last_modified + cfg.delete_delay ≤ t) && ex) = false := by
    rcases hx : ex with _ | _
    · simp
    · simp only [Bool.and_true, decide_eq_false_iff_not]
      exact fun hc => hg ⟨hc, hx⟩
  simp [delete_file_if_stable, hrec, hrem, this]



/-- Components of a successful `timeOk` test. -/
theorem timeOk_spec (s : SysState) (t : Nat) (h : timeOk s t = true) :
    s.now ≤ t ∧ (∀ d ∈ s.uploadTimers, t ≤ d) ∧ (∀ d ∈ s.deleteTimers, t ≤ d) := by
  simp only [timeOk, Bool.and_eq_true, decide_eq_true_eq, List.all_eq_true] at h
  exact ⟨h.1.1, fun d hd => h.1.2 d hd, fun d hd => h.2 d hd⟩

/-- Inductive invariant for the at-most-one-upload-timer property: a record
with `upload_scheduled` set has exactly one outstanding upload deadline, armed
less than `2 * upload_delay` after the last recorded activity; a record with
the flag clear, or no record, has none. -/
def UploadInv (cfg : Config) (s : SysState) : Prop :=
  (s.record = none → s.uploadTimers = []) ∧
  ∀ fs, s.record = some fs →
    fs.last_modified ≤ s.now ∧
    (fs.upload_scheduled = true →
       ∃ d, s.uploadTimers = [d] ∧ d < fs.last_modified + 2 * cfg.upload_delay) ∧
    (fs.upload_scheduled = false → s.uploadTimers = [])

theorem uploadInv_step (cfg : Config) (hud : 0 < cfg.upload_delay)
    (hdd : 2 * cfg.upload_delay ≤ cfg.delete_delay)
    (s : SysState) (st : Step) (s' : SysState)
    (hP : UploadInv cfg s) (hstep : applyStep cfg s st = some s') :
    UploadInv cfg s' := by
  cases st with
  | activity t ex rp =>
    simp only [applyStep] at hstep
    split at hstep
    case isFalse => exact absurd hstep (by simp)
    rename_i htime
    obtain ⟨hnow, hallu, -⟩ := timeOk_spec s t htime
    rw [Option.some_inj] at hstep
    subst hstep
    cases ex with
    | false =>
      rw [pfe_noex]
      exact ⟨hP.1, fun fs h =>
        ⟨((hP.2 fs h).1).trans hnow, (hP.2 fs h).2.1, (hP.2 fs h).2.2⟩⟩
    | true =>
      rcases hrec : s.record with _ | fs
      · rw [pfe_new_record cfg s t rp hrec]
        refine ⟨fun h => absurd h (by simp), fun fs' h => ?_⟩
        rw [Option.some_inj] at h
        subst h
        refine ⟨le_refl t, fun _ => ⟨t + cfg.upload_delay, ?_, by dsimp; omega⟩,
          fun h => by simp at h⟩
        rw [hP.1 hrec]
      · obtain ⟨hlm, hschedT, hschedF⟩ := hP.2 fs hrec
        rcases hsched : fs.upload_scheduled with _ | _
        · rw [pfe_unsched cfg s t rp fs hrec hsched]
          refine ⟨fun h => absurd h (by simp), fun fs' h => ?_⟩
          rw [Option.some_inj] at h
          subst h
          refine ⟨le_refl t, fun _ => ⟨t + cfg.upload_delay, ?_, by dsimp; omega⟩,
            fun h => by simp at h⟩
          rw [hschedF hsched]
        · rw [pfe_sched cfg s t rp fs hrec hsched]
          refine ⟨fun h => absurd h (by simp), fun fs' h => ?_⟩
          rw [Option.some_inj] at h
          subst h
          obtain ⟨d0, hts, hlt⟩ := hschedT hsched
          exact ⟨le_refl t, fun _ => ⟨d0, hts, by dsimp; omega⟩,
            fun h => by rw [hsched] at h; cases h⟩
  | uploadFire t d ex res =>
    simp only [applyStep] at hstep
    split at hstep
    case isFalse => exact absurd hstep (by simp)
    rename_i hcond
    simp only [Bool.and_eq_true] at hcond
    obtain ⟨⟨htime, -⟩, hcont⟩ := hcond
    obtain ⟨hnow, hallu, -⟩ := timeOk_spec s t htime
    have hmem : d ∈ s.uploadTimers := by simpa using hcont
    rw [Option.some_inj] at hstep
    subst hstep
    rcases hrec : s.record with _ | fs
    · rw [hP.1 hrec] at hmem
      exact absurd hmem (by simp)
    · obtain ⟨hlm, hschedT, hschedF⟩ := hP.2 fs hrec
      rcases hsched : fs.upload_scheduled with _ | _
      · rw [hschedF hsched] at hmem
        exact absurd hmem (by simp)
      · obtain ⟨d0, hts, hlt⟩ := hschedT hsched
        have hdd0 : d = d0 := by
          rw [hts] at hmem
          simpa using hmem
        subst hdd0
        have herase : s.uploadTimers.erase d = [] := by rw [hts]; simp
        by_cases hstable : fs.last_modified + cfg.upload_delay ≤ t
        · cases ex with
          | false =>
            rw [ufis_stable_noex cfg ⟨some fs, s.uploadTimers.erase d, s.deleteTimers, s.log, s.now⟩ t res fs rfl hstable]
            refine ⟨fun h => absurd h (by simp), fun fs' h => ?_⟩
            rw [Option.some_inj] at h
            subst h
            exact ⟨by dsimp; omega, fun h => by simp at h, fun _ => herase⟩
          | true =>
            rcases hrem : fs.remote_filename with _ | name
            · rcases hres : res with _ | rname
              · rw [ufis_create_fail cfg ⟨some fs, s.uploadTimers.erase d, s.deleteTimers, s.log, s.now⟩ t fs rfl hstable hrem]
                refine ⟨fun h => absurd h (by simp), fun fs' h => ?_⟩
                rw [Option.some_inj] at h
                subst h
                exact ⟨by dsimp; omega, fun h => by simp at h, fun _ => herase⟩
              · rw [ufis_create_ok cfg ⟨some fs, s.uploadTimers.erase d, s.deleteTimers, s.log, s.now⟩ t rname fs rfl hstable hrem]
                refine ⟨fun h => absurd h (by simp), fun fs' h => ?_⟩
                rw [Option.some_inj] at h
                subst h
                exact ⟨by dsimp; omega, fun h => by simp at h, fun _ => herase⟩
            · rw [ufis_replace cfg ⟨some fs, s.uploadTimers.erase d, s.deleteTimers, s.log, s.now⟩ t res fs name rfl hstable hrem]
              refine ⟨fun h => absurd h (by simp), fun fs' h => ?_⟩
              rw [Option.some_inj] at h
              subst h
              exact ⟨by dsimp; omega, fun h => by simp at h, fun _ => herase⟩
        · rw [ufis_unstable cfg ⟨some fs, s.uploadTimers.erase d, s.deleteTimers, s.log, s.now⟩ t ex res fs rfl hstable]
          refine ⟨fun h => absurd h (by simp), fun fs' h => ?_⟩
          have h' : fs = fs' := by
            dsimp only at h
            exact Option.some_inj.mp h
          subst h'
          refine ⟨?_, fun _ => ⟨t + cfg.upload_delay, ?_, by omega⟩,
            fun hc => by rw [hsched] at hc; cases hc⟩
          · dsimp only
            omega
          · dsimp only
            rw [herase]
  | deleteFire t d ex ok =>
    simp only [applyStep] at hstep
    split at hstep
    case isFalse => exact absurd hstep (by simp)
    rename_i hcond
    simp only [Bool.and_eq_true] at hcond
    obtain ⟨⟨htime, -⟩, -⟩ := hcond
    obtain ⟨hnow, hallu, -⟩ := timeOk_spec s t htime
    rw [Option.some_inj] at hstep
    subst hstep
    rcases hrec : s.record with _ | fs
    · rw [dfis_none cfg ⟨none, s.uploadTimers, s.deleteTimers.erase d, s.log, s.now⟩ t ex ok rfl]
      exact ⟨fun _ => hP.1 hrec, fun fs h => absurd h (by simp)⟩
    · obtain ⟨hlm, hschedT, hschedF⟩ := hP.2 fs hrec
      rcases hrem : fs.remote_filename with _ | name
      · rw [dfis_unsynced cfg ⟨some fs, s.uploadTimers, s.deleteTimers.erase d, s.log, s.now⟩ t ex ok fs rfl hrem]
        refine ⟨fun h => absurd h (by simp), fun fs' h => ?_⟩
        have h' : fs = fs' := by
          dsimp only at h
          exact Option.some_inj.mp h
        subst h'
        exact ⟨by dsimp only; omega, hschedT, hschedF⟩
      · by_cases hgx : fs.last_modified + cfg.delete_delay ≤ t ∧ ex = true
        · obtain ⟨hg, hx⟩ := hgx
          subst hx
          cases ok with
          | true =>
            rw [dfis_remove_ok cfg ⟨some fs, s.uploadTimers, s.deleteTimers.erase d, s.log, s.now⟩ t fs name rfl hrem hg]
            refine ⟨fun _ => ?_, fun fs' h => by simp at h⟩
            rcases hsched : fs.upload_scheduled with _ | _
            · exact hschedF hsched
            · obtain ⟨d0, hts, hlt⟩ := hschedT hsched
              have ht0 : t ≤ d0 := hallu d0 (by rw [hts]; simp)
              omega
          | false =>
            rw [dfis_remove_fail cfg ⟨some fs, s.uploadTimers, s.deleteTimers.erase d, s.log, s.now⟩ t fs name rfl hrem hg]
            refine ⟨fun h => absurd h (by simp), fun fs' h => ?_⟩
            have h' : fs = fs' := by
              dsimp only at h
              exact Option.some_inj.mp h
            subst h'
            exact ⟨by dsimp only; omega, hschedT, hschedF⟩
        · rw [dfis_rearm cfg ⟨some fs, s.uploadTimers, s.deleteTimers.erase d, s.log, s.now⟩ t ex ok fs name rfl hrem hgx]
          refine ⟨fun h => absurd h (by simp), fun fs' h => ?_⟩
          have h' : fs = fs' := by
            dsimp only at h
            exact Option.some_inj.mp h
          subst h'
          exact ⟨by dsimp only; omega, hschedT, hschedF⟩



/-- C3 (counterexample): the at-most-one-outstanding-upload-timer property
fails as stated once deletion-check firings are interleaved, for
configurations with `delete_delay < 2 * upload_delay`.  With
`upload_delay = 10`, `delete_delay = 15`, a deletion check can fire while an
upload-check timer is outstanding (after a lazy re-arm the record can become
`delete_delay`-quiet before the re-armed timer fires), remove the record, and
the next activity event then arms a second upload-check timer: after the trace
below TWO upload-check timers are outstanding at once. -/
theorem two_upload_timers_outstanding :
    (run ⟨10, 15⟩ initState
      [.activity 0 true "r", .uploadFire 10 10 true (some "f"),
       .activity 11 true "r", .uploadFire 21 21 true none,
       .deleteFire 25 25 true true, .activity 33 true "r",
       .deleteFire 36 36 true true, .activity 36 true "r",
       .deleteFire 40 40 true true, .uploadFire 43 43 true none,
       .deleteFire 51 51 true true, .activity 52 true "r"]).map
      (fun s => s.uploadTimers.length) = some 2 := by decide

/-- C3 (amended): for every sequence of interleaved activity events and timer
firings on a single path, at most one upload-check timer is outstanding at any
time — `process_file_event` arms a timer only when `upload_scheduled` is false
and sets it true, and each upload-check firing either re-arms exactly one
successor (leaving the flag true) or clears the flag without arming — PROVIDED
`upload_delay` is positive and `delete_delay ≥ 2 * upload_delay` (true of the
defaults 10 s / 600 s).  Without the proviso a deletion check can remove the
record while an upload-check timer is outstanding and the next activity event
arms a second one (see the counterexample). -/
theorem at_most_one_upload_timer (cfg : Config) (hud : 0 < cfg.upload_delay)
    (hdd : 2 * cfg.upload_delay ≤ cfg.delete_delay) :
    ∀ tr s', run cfg initState tr = some s' → s'.uploadTimers.length ≤ 1 := by
  intro tr s' hrun
  have key := run_inv cfg (UploadInv cfg) (fun _ => True)
    (fun s st s1 hP _ hstep => uploadInv_step cfg hud hdd s st s1 hP hstep)
    tr (fun _ _ => trivial) initState s'
    ⟨fun _ => rfl, fun fs h => absurd h (by simp [initState])⟩ hrun
  rcases hrec : s'.record with _ | fs
  · rw [key.1 hrec]
    simp
  · obtain ⟨-, hschedT, hschedF⟩ := key.2 fs hrec
    rcases hsched : fs.upload_scheduled with _ | _
    · rw [hschedF hsched]
      simp
    · obtain ⟨d0, hts, -⟩ := hschedT hsched
      rw [hts]
      simp

/-- Closed instance of C3's amended theorem. -/
theorem at_most_one_upload_timer_witness :
    (⟨some ⟨0, none, "r", true⟩, [10], [], [], 0⟩ : SysState).uploadTimers.length
      ≤ 1 :=
  at_most_one_upload_timer ⟨10, 600⟩ (by decide) (by decide)
    [Step.activity 0 true "r"] ⟨some ⟨0, none, "r", true⟩, [10], [], [], 0⟩
    (by decide)


end Daemon
